import Mathlib

/-!
Verification of the `rename-cli` batch file-renaming utility (src/main.rs).

The program is a linear pipeline: enumerate files in a directory, filter
them with a glob pattern, compute new names by literal substring
replacement, preview the plan, ask for confirmation, and apply the
renames.  We shallowly embed every stage:

* `list_files_in_dir` models the Rust function of the same name; the
  directory is a list of `DirItem`s (an item is either an entry whose
  `read_dir` step failed, or an entry carrying the result of its
  `file_type()` query, its `is_file` classification, and its file name —
  `none` standing for a name that is not valid Unicode).
* `parsePattern` / `globMatchT` model `glob::Pattern::new` and
  `Pattern::matches` (default `MatchOptions`: case sensitive, no literal
  separator or leading-dot requirements).
* `strReplace` models Rust `str::replace` (single left-to-right pass of
  non-overlapping literal replacement).
* `run` models the `run` function; stdin is a list of lines (reading past
  the end models EOF and yields the empty string, as `read_line` leaves
  the buffer empty), the filesystem rename primitive is an oracle
  `rs : String → String → Bool` telling which renames succeed, and all
  observable behaviour is recorded as a list of `Event`s plus a result.
-/

/-- ASCII whitespace test; models the whitespace classification used by
Rust `str::trim` on the inputs relevant here. -/
def isWS (c : Char) : Bool :=
  c = ' ' || c = '\t' || c = '\n' || c = '\r'

/-- Models Rust `str::trim`: drop whitespace from both ends. -/
def trimChars (s : String) : String :=
  ⟨((s.data.dropWhile isWS).reverse.dropWhile isWS).reverse⟩

/-- ASCII lower-casing of one character; models the effect of Rust
`str::to_lowercase` on the characters relevant here. -/
def lowerAscii (c : Char) : Char :=
  if 'A' ≤ c ∧ c ≤ 'Z' then Char.ofNat (c.toNat + 32) else c

/-- Models Rust `str::to_lowercase`. -/
def toLowerStr (s : String) : String :=
  ⟨s.data.map lowerAscii⟩

/-- One step of reading a line from standard input: past the end of the
available input (EOF) `read_line` leaves the buffer empty, so we return
the empty string and leave the stream unchanged. -/
def readLine : List String → String × List String
  | [] => ("", [])
  | l :: ls => (l, ls)

/-- Walk of Rust `str::replace` for a non-empty pattern `a`: one
left-to-right pass.  `skip` counts characters still inside the occurrence
replaced at an earlier position (they are consumed without testing).  At
a position outside any occurrence, if `a` occurs here, emit `b` and skip
the rest of the occurrence, otherwise emit the character and move on. -/
def replaceGo (a b : List Char) : List Char → Nat → List Char
  | [], _ => []
  | _ :: rest, Nat.succ k => replaceGo a b rest k
  | c :: rest, 0 =>
    if a.isPrefixOf (c :: rest) then b ++ replaceGo a b rest (a.length - 1)
    else c :: replaceGo a b rest 0

/-- Rust `str::replace` on character lists, for a non-empty pattern. -/
def replaceCore (a b s : List Char) : List Char :=
  replaceGo a b s 0

/-- Models Rust `String::replace(&self, from, to)`.  For an empty `from`
pattern, Rust's `match_indices` matches at every character boundary, so
the replacement is inserted before every character and at the end. -/
def strReplace (s pat toS : String) : String :=
  if pat.data = [] then
    ⟨toS.data ++ s.data.foldr (fun c acc => c :: (toS.data ++ acc)) []⟩
  else
    ⟨replaceCore pat.data toS.data s.data⟩

/-- The planner (main.rs lines 118–122): pair every matched name with its
replacement and keep only the pairs that actually change the name. -/
def computeRenames (fromStr toStr : String) (matched : List String) :
    List (String × String) :=
  (matched.map (fun old => (old, strReplace old fromStr toStr))).filter
    (fun p => p.1 != p.2)

/-- The confirmation gate (main.rs lines 133–141).  Returns
(a read from stdin occurred, decision is proceed, remaining stdin).
With the skip flag no read happens and the decision is proceed; otherwise
one line is read and the decision is proceed exactly when its trimmed,
lower-cased form is the literal string y. -/
def confirmDecision (yes : Bool) (stdin : List String) :
    Bool × Bool × List String :=
  if yes then (false, true, stdin)
  else
    let r := readLine stdin
    (true, toLowerStr (trimChars r.1) == "y", r.2)

instance {ε α : Type} [DecidableEq ε] [DecidableEq α] :
    DecidableEq (Except ε α) := fun a b =>
  match a, b with
  | .ok x, .ok y =>
    if h : x = y then isTrue (by rw [h]) else isFalse (by simp [h])
  | .error x, .error y =>
    if h : x = y then isTrue (by rw [h]) else isFalse (by simp [h])
  | .ok _, .error _ => isFalse (by simp)
  | .error _, .ok _ => isFalse (by simp)

/-- Character specifiers inside a glob bracket set, as in the `glob`
crate: a single character or an inclusive range. -/
inductive CharSpec where
  | single (c : Char)
  | range (lo hi : Char)
  deriving DecidableEq, Repr

/-- Tokens of a compiled glob pattern, mirroring the `glob` crate. -/
inductive Token where
  | char (c : Char)
  | anyChar
  | anySequence
  | anyRecursive
  | anyWithin (specs : List CharSpec)
  | anyExcept (specs : List CharSpec)
  deriving DecidableEq, Repr

/-- The three error messages `glob::Pattern::new` can produce. -/
inductive ErrMsg where
  | wildcards
  | recursiveWildcards
  | invalidRange
  deriving DecidableEq, Repr

/-- A glob pattern compilation error: position and message. -/
structure PatternError where
  pos : Nat
  msg : ErrMsg
  deriving DecidableEq, Repr

/-- Models `parse_char_specifiers` of the `glob` crate: a character
followed by a dash and another character forms a range (when at least
three characters remain), anything else is a single-character spec. -/
def parseCharSpecs : List Char → List CharSpec
  | c :: '-' :: d :: rest => CharSpec.range c d :: parseCharSpecs rest
  | c :: rest => CharSpec.single c :: parseCharSpecs rest
  | [] => []

/-- Models the token-building loop of `glob::Pattern::new`.  `pos` is the
index of the head of `cs` in the original pattern and `prev` the
character just before it (used by the `**` component checks); `acc` is
the token list built so far. -/
def parseTokens (cs : List Char) (pos : Nat) (prev : Option Char)
    (acc : List Token) : Except PatternError (List Token) :=
  match cs with
  | [] => .ok acc
  | '?' :: rest => parseTokens rest (pos + 1) (some '?') (acc ++ [Token.anyChar])
  | '*' :: '*' :: '*' :: _ => .error ⟨pos + 2, ErrMsg.wildcards⟩
  | '*' :: '*' :: rest =>
    if prev = none ∨ prev = some '/' then
      let acc' :=
        if 1 < acc.length ∧ acc.getLast? = some Token.anyRecursive then acc
        else acc ++ [Token.anyRecursive]
      match rest with
      | [] => parseTokens [] (pos + 2) (some '*') acc'
      | '/' :: rest2 => parseTokens rest2 (pos + 3) (some '/') acc'
      | _ => .error ⟨pos + 2, ErrMsg.recursiveWildcards⟩
    else .error ⟨pos - 1, ErrMsg.recursiveWildcards⟩
  | '*' :: rest => parseTokens rest (pos + 1) (some '*') (acc ++ [Token.anySequence])
  | '[' :: '!' :: c2 :: rest3 =>
    if 1 ≤ rest3.length then
      match rest3.findIdx? (fun c => c = ']') with
      | none => .error ⟨pos, ErrMsg.invalidRange⟩
      | some j =>
        parseTokens (rest3.drop (j + 1)) (pos + j + 4) (some ']')
          (acc ++ [Token.anyExcept (parseCharSpecs (c2 :: rest3.take j))])
    else .error ⟨pos, ErrMsg.invalidRange⟩
  | '[' :: '!' :: _ => .error ⟨pos, ErrMsg.invalidRange⟩
  | '[' :: c1 :: rest2 =>
    if 1 ≤ rest2.length then
      match rest2.findIdx? (fun c => c = ']') with
      | none => .error ⟨pos, ErrMsg.invalidRange⟩
      | some j =>
        parseTokens (rest2.drop (j + 1)) (pos + j + 3) (some ']')
          (acc ++ [Token.anyWithin (parseCharSpecs (c1 :: rest2.take j))])
    else .error ⟨pos, ErrMsg.invalidRange⟩
  | '[' :: [] => .error ⟨pos, ErrMsg.invalidRange⟩
  | c :: rest => parseTokens rest (pos + 1) (some c) (acc ++ [Token.char c])
termination_by cs.length
decreasing_by
  all_goals (simp only [List.length_drop, List.length_cons]; omega)

/-- Models `glob::Pattern::new`. -/
def parsePattern (s : String) : Except PatternError (List Token) :=
  parseTokens s.data 0 none []

/-- Models `in_char_specifiers` of the `glob` crate with the default
(case sensitive) options. -/
def inSpecs (specs : List CharSpec) (c : Char) : Bool :=
  specs.any fun sp =>
    match sp with
    | CharSpec.single d => c = d
    | CharSpec.range lo hi => lo ≤ c && c ≤ hi

/-- Models `Pattern::matches_from` with the default `MatchOptions`.
`fs` tracks `follows_separator`.  A `*` tries the remaining tokens at
every suffix; a `**` (kept as a whole path component by the parser) tries
them only at component boundaries; consuming tokens require one more
character; an exhausted pattern matches exactly the exhausted name. -/
def globMatchT (ts : List Token) (fs : Bool) (s : List Char) : Bool :=
  match ts, s with
  | [], s => s.isEmpty
  | Token.anySequence :: ts, s =>
    globMatchT ts fs s ||
      (match s with
       | [] => false
       | c :: rest => globMatchT (Token.anySequence :: ts) (c = '/') rest)
  | Token.anyRecursive :: ts, s =>
    (fs && globMatchT ts fs s) ||
      (match s with
       | [] => false
       | c :: rest => globMatchT (Token.anyRecursive :: ts) (c = '/') rest)
  | Token.anyChar :: _, [] => false
  | Token.anyChar :: ts, c :: rest => globMatchT ts (c = '/') rest
  | Token.char _ :: _, [] => false
  | Token.char d :: ts, c :: rest => c = d && globMatchT ts (c = '/') rest
  | Token.anyWithin _ :: _, [] => false
  | Token.anyWithin specs :: ts, c :: rest =>
    inSpecs specs c && globMatchT ts (c = '/') rest
  | Token.anyExcept _ :: _, [] => false
  | Token.anyExcept specs :: ts, c :: rest =>
    !inSpecs specs c && globMatchT ts (c = '/') rest
termination_by (s.length, ts.length)
decreasing_by
  all_goals simp_arith [Prod.lex_iff]

/-- Models `pattern.matches(file_name)`: match the whole name, starting
in the `follows_separator = true` state. -/
def globMatches (tokens : List Token) (name : String) : Bool :=
  globMatchT tokens true name.data

/-- Everything the program makes observable: lines printed, prompts
issued (each prompt is also a stdin read), and rename attempts with
their outcomes. -/
inductive Event where
  | listHeader
  | fileName (s : String)
  | emptyDirMsg
  | modeBanner
  | promptPattern
  | cancelledEmptyPattern
  | promptFrom
  | cancelledEmptyFrom
  | promptTo
  | noMatches
  | previewHeader
  | preview (old new : String)
  | nothingToRename
  | confirmPrompt
  | execStart
  | renamed (old new : String)
  | renameFailed (old new : String)
  | completion
  | cancelled
  deriving DecidableEq, Repr

/-- The error kinds `run` can return (the messages are immaterial). -/
inductive RunError where
  | notADir
  | enumIO
  | badPattern
  deriving DecidableEq, Repr

/-- The observable outcome of one invocation: the event sequence and the
`Result` value of `run`. -/
structure Trace where
  events : List Event
  result : Except RunError Unit
  deriving DecidableEq, Repr

/-- Prepend events to a trace. -/
def Trace.pre (evs : List Event) (t : Trace) : Trace :=
  ⟨evs ++ t.events, t.result⟩

/-- The parsed command line (main.rs `Args`): optional pattern and
substitution strings, and the skip-confirmation flag. -/
structure Args where
  pattern : Option String
  from_str : Option String
  to_str : Option String
  yes : Bool
  deriving DecidableEq, Repr

/-- The executor (main.rs lines 143–150): attempt every entry of the
plan in order; each attempt is independent and its outcome is recorded. -/
def executeRenames (rs : String → String → Bool)
    (renames : List (String × String)) : List Event :=
  renames.map fun p =>
    if rs p.1 p.2 then Event.renamed p.1 p.2 else Event.renameFailed p.1 p.2

/-- Stages 3–5 of `run` (main.rs lines 104–156): compile the pattern,
filter, plan, preview, confirm and execute.  `stdin` is the input not yet
consumed when stage 4 asks for confirmation. -/
def runRest (patternStr fromStr toStr : String) (yes : Bool)
    (allFiles : List String) (stdin : List String)
    (rs : String → String → Bool) : Trace :=
  match parsePattern patternStr with
  | .error _ => ⟨[], .error RunError.badPattern⟩
  | .ok tokens =>
    let matchedFiles := allFiles.filter (fun f => globMatches tokens f)
    if matchedFiles = [] then ⟨[Event.noMatches], .ok ()⟩
    else
      let renames := computeRenames fromStr toStr matchedFiles
      if renames = [] then ⟨[Event.previewHeader, Event.nothingToRename], .ok ()⟩
      else
        let c := confirmDecision yes stdin
        let confirmEvs := if yes then ([] : List Event) else [Event.confirmPrompt]
        if c.2.1 then
          ⟨[Event.previewHeader] ++ renames.map (fun p => Event.preview p.1 p.2) ++
              confirmEvs ++ [Event.execStart] ++ executeRenames rs renames ++
              [Event.completion],
            .ok ()⟩
        else
          ⟨[Event.previewHeader] ++ renames.map (fun p => Event.preview p.1 p.2) ++
              confirmEvs ++ [Event.cancelled],
            .ok ()⟩

/-- The whole `run` function.  `isDir` is the result of `path.is_dir()`,
`enumRes` the result of `list_files_in_dir`, `stdin` the available input
lines and `rs` the rename oracle. -/
def run (args : Args) (isDir : Bool) (enumRes : Except Unit (List String))
    (stdin : List String) (rs : String → String → Bool) : Trace :=
  if isDir then
    match enumRes with
    | .error _ => ⟨[Event.listHeader], .error RunError.enumIO⟩
    | .ok allFiles =>
      if allFiles = [] then ⟨[Event.listHeader, Event.emptyDirMsg], .ok ()⟩
      else
        let listEvs :=
          if args.pattern.isNone then allFiles.map Event.fileName else []
        match args.pattern, args.from_str, args.to_str with
        | some p, some f, some t =>
          Trace.pre ([Event.listHeader] ++ listEvs ++ [Event.modeBanner])
            (runRest p f t args.yes allFiles stdin rs)
        | _, _, _ =>
          let r1 := readLine stdin
          let patternStr := trimChars r1.1
          if patternStr = "" then
            ⟨[Event.listHeader] ++ listEvs ++
                [Event.promptPattern, Event.cancelledEmptyPattern],
              .ok ()⟩
          else
            let r2 := readLine r1.2
            let fromStr := trimChars r2.1
            if fromStr = "" then
              ⟨[Event.listHeader] ++ listEvs ++
                  [Event.promptPattern, Event.promptFrom,
                    Event.cancelledEmptyFrom],
                .ok ()⟩
            else
              let r3 := readLine r2.2
              let toStr := trimChars r3.1
              Trace.pre
                ([Event.listHeader] ++ listEvs ++
                  [Event.promptPattern, Event.promptFrom, Event.promptTo])
                (runRest patternStr fromStr toStr args.yes allFiles r3.2 rs)
  else ⟨[], .error RunError.notADir⟩

/-- One item yielded by `fs::read_dir`: either the iteration step itself
failed, or we get an entry with the outcome of its `file_type()` query
(`ftErr` true meaning the metadata query fails), its regular-file
classification, and its file name (`none` when not valid Unicode). -/
inductive DirItem where
  | entryErr
  | entry (ftErr : Bool) (isFile : Bool) (name : Option String)
  deriving DecidableEq, Repr

/-- Whether processing this item makes `list_files_in_dir` fail. -/
def DirItem.isErr : DirItem → Bool
  | .entryErr => true
  | .entry ftErr _ _ => ftErr

/-- The names `list_files_in_dir` can collect from a directory listing:
regular files, readable metadata, valid-Unicode name. -/
def validNames (items : List DirItem) : List String :=
  items.filterMap fun i =>
    match i with
    | DirItem.entry false true (some n) => some n
    | _ => none

/-- The collection loop of `list_files_in_dir` (main.rs lines 161–172):
propagate entry and metadata errors, push valid-Unicode names of regular
files, and stop as soon as 50 names have been collected (the length
check runs after every successfully processed entry). -/
def listFilesCore : List DirItem → List String → Except Unit (List String)
  | [], files => .ok files
  | DirItem.entryErr :: _, _ => .error ()
  | DirItem.entry ftErr isFile name :: rest, files =>
    if ftErr then .error ()
    else
      let files' :=
        if isFile then
          match name with
          | some n => files ++ [n]
          | none => files
        else files
      if 50 ≤ files'.length then .ok files'
      else listFilesCore rest files'

/-- Lexicographic comparison of character lists (code-point order; on
valid UTF-8, byte order and code-point order coincide, so this models
the `Ord` used by Rust `Vec::<String>::sort()`). -/
def charsLe : List Char → List Char → Bool
  | [], _ => true
  | _ :: _, [] => false
  | a :: as, b :: bs =>
    if a < b then true else if b < a then false else charsLe as bs

/-- Lexicographic comparison of strings, modelling Rust `String`'s
`Ord`. -/
def strLe (a b : String) : Bool :=
  charsLe a.data b.data

/-- Lexicographic sort, modelling `Vec::<String>::sort()`. -/
def sortStrings (l : List String) : List String :=
  List.insertionSort (fun a b => strLe a b = true) l

/-- Models `list_files_in_dir`: fail if the directory cannot be read,
otherwise run the collection loop and sort the result. -/
def list_files_in_dir (dir : Except Unit (List DirItem)) :
    Except Unit (List String) :=
  match dir with
  | .error e => .error e
  | .ok items => (listFilesCore items []).map sortStrings

/-- Rename attempts are the only filesystem mutations. -/
def isRenameEvent : Event → Bool
  | Event.renamed _ _ => true
  | Event.renameFailed _ _ => true
  | _ => false

/-- Events that the pipeline tail (stages 3–5) can emit. -/
def isTailEvent : Event → Bool
  | Event.noMatches => true
  | Event.previewHeader => true
  | Event.nothingToRename => true
  | Event.preview _ _ => true
  | Event.confirmPrompt => true
  | Event.execStart => true
  | Event.renamed _ _ => true
  | Event.renameFailed _ _ => true
  | Event.completion => true
  | _ => false

/-- Whether an `Except` value is a success. -/
def isOkE : Except Unit (List String) → Bool
  | .ok _ => true
  | .error _ => false

/-- A directory listing with 50 regular files followed by one entry
whose metadata query fails. -/
def c7CexItems : List DirItem :=
  (List.range 50).map
    (fun i => DirItem.entry false true (some ⟨[Char.ofNat (65 + i)]⟩)) ++
    [DirItem.entry true false none]

/-! ### The one-pass replacement algorithm -/

theorem replaceGo_skip (a b : List Char) :
    ∀ (s : List Char) (k : Nat), replaceGo a b s k = replaceGo a b (s.drop k) 0
  | [], k => by cases k <;> rfl
  | _ :: _, 0 => rfl
  | _ :: rest, Nat.succ k => by
    simpa [replaceGo] using replaceGo_skip a b rest k

theorem isPrefixOf_append_self (a : List Char) :
    ∀ t, a.isPrefixOf (a ++ t) = true := by
  induction a with
  | nil => intro t; cases t <;> rfl
  | cons c a ih => intro t; simp [List.isPrefixOf, ih]

theorem replaceCore_nil (a b : List Char) : replaceCore a b [] = [] := rfl

theorem replaceCore_pos (a b : List Char) (c : Char) (t : List Char)
    (ha : a ≠ []) (h : a.isPrefixOf (c :: t) = true) :
    replaceCore a b (c :: t) = b ++ replaceCore a b ((c :: t).drop a.length) := by
  obtain ⟨d, a', rfl⟩ : ∃ d a', a = d :: a' := by
    cases a with
    | nil => exact absurd rfl ha
    | cons d a' => exact ⟨d, a', rfl⟩
  simp only [replaceCore, replaceGo, h, if_true, List.length_cons,
    Nat.add_sub_cancel, List.drop_succ_cons]
  rw [replaceGo_skip]

theorem replaceCore_append (a b t : List Char) (ha : a ≠ []) :
    replaceCore a b (a ++ t) = b ++ replaceCore a b t := by
  obtain ⟨d, a', rfl⟩ : ∃ d a', a = d :: a' := by
    cases a with
    | nil => exact absurd rfl ha
    | cons d a' => exact ⟨d, a', rfl⟩
  rw [List.cons_append, replaceCore_pos _ _ _ _ ha]
  · simp [List.drop_left']
  · exact isPrefixOf_append_self (d :: a') t

theorem replaceCore_neg (a b : List Char) (c : Char) (t : List Char)
    (h : a.isPrefixOf (c :: t) = false) :
    replaceCore a b (c :: t) = c :: replaceCore a b t := by
  simp [replaceCore, replaceGo, h]

theorem data_ne_nil_of_ne_empty (A : String) (h : A ≠ "") : A.data ≠ [] := by
  intro hd
  apply h
  cases A
  simp_all

/-- C2: for every matched-name sequence and substitution rule (A, B) with
A non-empty, the planner computes each new name by exactly one
left-to-right pass of non-overlapping literal replacement of every
occurrence of A with B (the recurrence equations below uniquely pin down
that algorithm: an occurrence of A is consumed as a whole, B is emitted
verbatim and never rescanned, and a non-occurrence position passes one
character through), produces the (old, new) pairs in the same relative
order as the matched sequence (the plan is a sublist of the pair list of
the matched sequence), and a pair is in the plan exactly when it comes
from the matched sequence and old ≠ new. -/
theorem planner_one_pass (A B : String) (matched : List String) (hA : A ≠ "") :
    (computeRenames A B matched =
      (matched.map (fun old => (old, strReplace old A B))).filter
        (fun p => p.1 != p.2)) ∧
    (∀ s : String, strReplace s A B = ⟨replaceCore A.data B.data s.data⟩) ∧
    replaceCore A.data B.data [] = [] ∧
    (∀ t, replaceCore A.data B.data (A.data ++ t) =
      B.data ++ replaceCore A.data B.data t) ∧
    (∀ c t, A.data.isPrefixOf (c :: t) = false →
      replaceCore A.data B.data (c :: t) = c :: replaceCore A.data B.data t) ∧
    (computeRenames A B matched).Sublist
      (matched.map (fun old => (old, strReplace old A B))) ∧
    (∀ p, p ∈ computeRenames A B matched ↔
      p ∈ matched.map (fun old => (old, strReplace old A B)) ∧ p.1 ≠ p.2) := by
  have hdata := data_ne_nil_of_ne_empty A hA
  refine ⟨rfl, ?_, rfl, ?_, ?_, ?_, ?_⟩
  · intro s
    rw [strReplace, if_neg hdata]
  · intro t
    exact replaceCore_append _ _ _ hdata
  · intro c t h
    exact replaceCore_neg _ _ _ _ h
  · exact List.filter_sublist _
  · intro p
    simp [computeRenames, List.mem_filter]

theorem planner_one_pass_witness :
    ("ab" : String) ≠ "" ∧
    replaceCore "ab".data "b".data ("ab".data ++ ['a', 'b']) =
      "b".data ++ replaceCore "ab".data "b".data ['a', 'b'] :=
  ⟨by decide, (planner_one_pass "ab" "b" [] (by decide)).2.2.2.1 ['a', 'b']⟩

/-! ### The confirmation gate -/

/-- C3: the confirmation decision is proceed exactly when the skip flag
is set (and then no stdin read occurs and the input is left untouched),
or the single line read from stdin equals the literal y after trimming
and lower-casing; any other input, the empty string and EOF included,
yields abort. -/
theorem confirm_gate_spec :
    (∀ stdin, confirmDecision true stdin = (false, true, stdin)) ∧
    (∀ stdin, (confirmDecision false stdin).1 = true ∧
      ((confirmDecision false stdin).2.1 = true ↔
        toLowerStr (trimChars (readLine stdin).1) = "y")) ∧
    confirmDecision false [] = (true, false, []) ∧
    (∀ rest, confirmDecision false ("" :: rest) = (true, false, rest)) := by
  refine ⟨fun stdin => rfl, fun stdin => ⟨rfl, ?_⟩, by decide, fun rest => ?_⟩
  · simp [confirmDecision]
  · simp [confirmDecision, readLine]
    decide

theorem confirm_gate_spec_witness :
    confirmDecision true ["n"] = (false, true, ["n"]) ∧
    (confirmDecision false [" Y "]).2.1 = true :=
  ⟨confirm_gate_spec.1 ["n"],
    ((confirm_gate_spec.2.1 [" Y "]).2).mpr (by decide)⟩

/-! ### Shapes of the pipeline tail (stages 3–5) -/

theorem any_isRename_fileName (files : List String) :
    (files.map Event.fileName).any isRenameEvent = false := by
  induction files <;> simp_all [isRenameEvent]

theorem any_isRename_preview :
    ∀ l : List (String × String),
      (l.map (fun q => Event.preview q.1 q.2)).any isRenameEvent = false
  | [] => rfl
  | q :: l => by simp [isRenameEvent, any_isRename_preview l]

theorem runRest_parse_err (p f t : String) (yes : Bool)
    (files stdin : List String) (rs : String → String → Bool)
    (e : PatternError) (h : parsePattern p = .error e) :
    runRest p f t yes files stdin rs = ⟨[], .error RunError.badPattern⟩ := by
  simp [runRest, h]

theorem runRest_noMatches (p f t : String) (yes : Bool)
    (files stdin : List String) (rs : String → String → Bool)
    (tokens : List Token) (h : parsePattern p = .ok tokens)
    (hm : files.filter (fun n => globMatches tokens n) = []) :
    runRest p f t yes files stdin rs = ⟨[Event.noMatches], .ok ()⟩ := by
  simp [runRest, h, hm]

theorem runRest_noRenames (p f t : String) (yes : Bool)
    (files stdin : List String) (rs : String → String → Bool)
    (tokens : List Token) (h : parsePattern p = .ok tokens)
    (hm : files.filter (fun n => globMatches tokens n) ≠ [])
    (hr : computeRenames f t (files.filter (fun n => globMatches tokens n)) = []) :
    runRest p f t yes files stdin rs =
      ⟨[Event.previewHeader, Event.nothingToRename], .ok ()⟩ := by
  simp [runRest, h, hm, hr]

theorem runRest_proceed (p f t : String) (yes : Bool)
    (files stdin : List String) (rs : String → String → Bool)
    (tokens : List Token) (h : parsePattern p = .ok tokens)
    (hm : files.filter (fun n => globMatches tokens n) ≠ [])
    (hr : computeRenames f t (files.filter (fun n => globMatches tokens n)) ≠ [])
    (hd : (confirmDecision yes stdin).2.1 = true) :
    runRest p f t yes files stdin rs =
      ⟨[Event.previewHeader] ++
          (computeRenames f t (files.filter (fun n => globMatches tokens n))).map
            (fun q => Event.preview q.1 q.2) ++
          (if yes then [] else [Event.confirmPrompt]) ++ [Event.execStart] ++
          executeRenames rs
            (computeRenames f t (files.filter (fun n => globMatches tokens n))) ++
          [Event.completion],
        .ok ()⟩ := by
  simp [runRest, h, hm, hr, hd]

theorem runRest_abort (p f t : String) (yes : Bool)
    (files stdin : List String) (rs : String → String → Bool)
    (tokens : List Token) (h : parsePattern p = .ok tokens)
    (hm : files.filter (fun n => globMatches tokens n) ≠ [])
    (hr : computeRenames f t (files.filter (fun n => globMatches tokens n)) ≠ [])
    (hd : (confirmDecision yes stdin).2.1 = false) :
    runRest p f t yes files stdin rs =
      ⟨[Event.previewHeader] ++
          (computeRenames f t (files.filter (fun n => globMatches tokens n))).map
            (fun q => Event.preview q.1 q.2) ++
          (if yes then [] else [Event.confirmPrompt]) ++ [Event.cancelled],
        .ok ()⟩ := by
  simp [runRest, h, hm, hr, hd]

/-! ### The matcher -/

theorem globMatchT_literal (lit : List Char) :
    ∀ (fs : Bool) (s : List Char),
      globMatchT (lit.map Token.char) fs s = true ↔ s = lit := by
  induction lit with
  | nil =>
    intro fs s
    cases s <;> simp [globMatchT]
  | cons c lit ih =>
    intro fs s
    cases s with
    | nil => simp [globMatchT]
    | cons d rest => simp [globMatchT, ih]

/-- C6: for every token list and name sequence, the matcher's output is
the order-preserving subsequence of exactly those names the pattern
matches (a name is kept iff it is in the input and the whole-name match
succeeds); matching is anchored at both ends — a pattern of literal
characters matches exactly the identical name, never a proper substring
extension; and an empty match result is not a failure: the pipeline
reports no matches and stops with `Ok`. -/
theorem matcher_full_name (tokens : List Token) (files : List String) :
    (files.filter (fun n => globMatches tokens n)).Sublist files ∧
    (∀ n, n ∈ files.filter (fun n => globMatches tokens n) ↔
      n ∈ files ∧ globMatches tokens n = true) ∧
    (∀ (lit : List Char) (fs : Bool) (s : List Char),
      globMatchT (lit.map Token.char) fs s = true ↔ s = lit) ∧
    (∀ (p f t : String) (yes : Bool) (stdin : List String)
        (rs : String → String → Bool),
      parsePattern p = .ok tokens →
      files.filter (fun n => globMatches tokens n) = [] →
      runRest p f t yes files stdin rs = ⟨[Event.noMatches], .ok ()⟩) := by
  refine ⟨List.filter_sublist _, ?_, fun lit => globMatchT_literal lit, ?_⟩
  · intro n
    simp [List.mem_filter]
  · intro p f t yes stdin rs hparse hempty
    exact runRest_noMatches p f t yes files stdin rs tokens hparse hempty

theorem matcher_full_name_witness :
    runRest "q" "a" "b" false ["a"] [] (fun _ _ => true) =
      ⟨[Event.noMatches], .ok ()⟩ :=
  (matcher_full_name [Token.char 'q'] ["a"]).2.2.2 "q" "a" "b" false []
    (fun _ _ => true) (by simp [parsePattern, parseTokens])
    (by simp [globMatches, globMatchT])

/-! ### The executor -/

/-- C4: for every non-empty plan whose confirmation decision is proceed,
the pipeline tail previews the plan and then attempts every plan entry in
plan order — the executed event list is pointwise determined by the plan
(a failing entry contributes its failure report and nothing else), so a
failure on one entry cannot prevent any later entry from being attempted
— and after all entries a completion event is reported and the run result
is `Ok`, however many attempts failed. -/
theorem executor_partial_failure (p f t : String) (yes : Bool)
    (files stdin : List String) (rs : String → String → Bool)
    (tokens : List Token) (hparse : parsePattern p = .ok tokens)
    (hplan :
      computeRenames f t (files.filter (fun n => globMatches tokens n)) ≠ [])
    (hgo : (confirmDecision yes stdin).2.1 = true) :
    (runRest p f t yes files stdin rs).events =
      [Event.previewHeader] ++
        (computeRenames f t (files.filter (fun n => globMatches tokens n))).map
          (fun q => Event.preview q.1 q.2) ++
        (if yes then [] else [Event.confirmPrompt]) ++ [Event.execStart] ++
        (computeRenames f t (files.filter (fun n => globMatches tokens n))).map
          (fun q => if rs q.1 q.2 then Event.renamed q.1 q.2
            else Event.renameFailed q.1 q.2) ++
        [Event.completion] ∧
    (∀ q ∈ computeRenames f t (files.filter (fun n => globMatches tokens n)),
      (if rs q.1 q.2 then Event.renamed q.1 q.2
        else Event.renameFailed q.1 q.2) ∈
          (runRest p f t yes files stdin rs).events) ∧
    Event.completion ∈ (runRest p f t yes files stdin rs).events ∧
    (runRest p f t yes files stdin rs).result = .ok () := by
  have hm : files.filter (fun n => globMatches tokens n) ≠ [] := by
    intro h
    apply hplan
    rw [h]
    rfl
  rw [runRest_proceed p f t yes files stdin rs tokens hparse hm hplan hgo]
  refine ⟨rfl, ?_, ?_, rfl⟩
  · intro q hq
    simp only [executeRenames, List.mem_append]
    exact Or.inl (Or.inr (List.mem_map_of_mem _ hq))
  · simp

theorem executor_partial_failure_witness :
    (runRest "*" "a" "b" true ["ab"] [] (fun _ _ => false)).events =
      [Event.previewHeader, Event.preview "ab" "bb", Event.execStart,
        Event.renameFailed "ab" "bb", Event.completion] ∧
    (runRest "*" "a" "b" true ["ab"] [] (fun _ _ => false)).result = .ok () := by
  have h := executor_partial_failure "*" "a" "b" true ["ab"] []
    (fun _ _ => false) [Token.anySequence]
    (by simp [parsePattern, parseTokens])
    (by simp [globMatches, globMatchT]; decide)
    (by decide)
  refine ⟨?_, h.2.2.2⟩
  rw [h.1]
  simp [globMatches, globMatchT]
  decide

/-! ### Shapes of the full run -/

theorem run_not_a_dir (args : Args) (enumRes : Except Unit (List String))
    (stdin : List String) (rs : String → String → Bool) :
    run args false enumRes stdin rs = ⟨[], .error RunError.notADir⟩ := by
  simp [run]

theorem run_enum_err (args : Args) (stdin : List String)
    (rs : String → String → Bool) :
    run args true (.error ()) stdin rs =
      ⟨[Event.listHeader], .error RunError.enumIO⟩ := by
  simp [run]

theorem run_empty_dir (args : Args) (stdin : List String)
    (rs : String → String → Bool) :
    run args true (.ok []) stdin rs =
      ⟨[Event.listHeader, Event.emptyDirMsg], .ok ()⟩ := by
  simp [run]

theorem run_all_some (p f t : String) (yes : Bool)
    (files stdin : List String) (rs : String → String → Bool)
    (hfe : files ≠ []) :
    run ⟨some p, some f, some t, yes⟩ true (.ok files) stdin rs =
      Trace.pre [Event.listHeader, Event.modeBanner]
        (runRest p f t yes files stdin rs) := by
  simp [run, hfe]

theorem run_interactive (args : Args) (files stdin : List String)
    (rs : String → String → Bool)
    (hmode : args.pattern = none ∨ args.from_str = none ∨ args.to_str = none)
    (hfe : files ≠ []) :
    run args true (.ok files) stdin rs =
      (let listEvs :=
        if args.pattern.isNone then files.map Event.fileName else []
       let pS := trimChars (readLine stdin).1
       if pS = "" then
         ⟨[Event.listHeader] ++ listEvs ++
             [Event.promptPattern, Event.cancelledEmptyPattern], .ok ()⟩
       else
         let r2 := readLine (readLine stdin).2
         let fS := trimChars r2.1
         if fS = "" then
           ⟨[Event.listHeader] ++ listEvs ++
               [Event.promptPattern, Event.promptFrom,
                 Event.cancelledEmptyFrom], .ok ()⟩
         else
           let r3 := readLine r2.2
           Trace.pre
             ([Event.listHeader] ++ listEvs ++
               [Event.promptPattern, Event.promptFrom, Event.promptTo])
             (runRest pS fS (trimChars r3.1) args.yes files r3.2 rs)) := by
  obtain ⟨p?, f?, t?, yes⟩ := args
  cases p? <;> cases f? <;> cases t? <;> simp_all [run, hfe]

theorem Trace.pre_events (evs : List Event) (t : Trace) :
    (Trace.pre evs t).events = evs ++ t.events := rfl

theorem Trace.pre_result (evs : List Event) (t : Trace) :
    (Trace.pre evs t).result = t.result := rfl

theorem any_isRename_listEvs (b : Bool) (files : List String) :
    (if b then files.map Event.fileName else ([] : List Event)).any
      isRenameEvent = false := by
  cases b <;> simp [any_isRename_fileName]

theorem runRest_rename_inv (p f t : String) (yes : Bool)
    (files stdin : List String) (rs : String → String → Bool)
    (h : (runRest p f t yes files stdin rs).events.any isRenameEvent = true) :
    ∃ tokens, parsePattern p = .ok tokens ∧
      files.filter (fun n => globMatches tokens n) ≠ [] ∧
      computeRenames f t (files.filter (fun n => globMatches tokens n)) ≠ [] ∧
      (confirmDecision yes stdin).2.1 = true := by
  cases hp : parsePattern p with
  | error e =>
    rw [runRest_parse_err p f t yes files stdin rs e hp] at h
    simp at h
  | ok tokens =>
    by_cases hm : files.filter (fun n => globMatches tokens n) = []
    · rw [runRest_noMatches p f t yes files stdin rs tokens hp hm] at h
      simp [isRenameEvent] at h
    · by_cases hr :
        computeRenames f t (files.filter (fun n => globMatches tokens n)) = []
      · rw [runRest_noRenames p f t yes files stdin rs tokens hp hm hr] at h
        simp [isRenameEvent] at h
      · cases hd : (confirmDecision yes stdin).2.1 with
        | true => exact ⟨tokens, rfl, hm, hr, rfl⟩
        | false =>
          rw [runRest_abort p f t yes files stdin rs tokens hp hm hr hd] at h
          cases yes <;>
            simp [List.any_append, any_isRename_preview, isRenameEvent] at h

theorem run_interactive_rename_inv (args : Args) (files stdin : List String)
    (rs : String → String → Bool)
    (hmode : args.pattern = none ∨ args.from_str = none ∨ args.to_str = none)
    (hfe : files ≠ [])
    (h : (run args true (.ok files) stdin rs).events.any isRenameEvent = true) :
    ∃ pS fS tS stdin2 tokens,
      parsePattern pS = .ok tokens ∧
      files.filter (fun n => globMatches tokens n) ≠ [] ∧
      computeRenames fS tS (files.filter (fun n => globMatches tokens n)) ≠ [] ∧
      (confirmDecision args.yes stdin2).2.1 = true := by
  rw [run_interactive args files stdin rs hmode hfe] at h
  by_cases h1 : trimChars (readLine stdin).1 = ""
  · simp only [h1, reduceIte] at h
    simp only [List.any_append, any_isRename_listEvs, List.any_cons,
      List.any_nil, isRenameEvent, Bool.or_false, Bool.false_or] at h
    exact absurd h (by decide)
  · by_cases h2 : trimChars (readLine (readLine stdin).2).1 = ""
    · simp only [h1, h2, reduceIte] at h
      simp only [List.any_append, any_isRename_listEvs, List.any_cons,
        List.any_nil, isRenameEvent, Bool.or_false, Bool.false_or] at h
      exact absurd h (by decide)
    · simp only [h1, h2, reduceIte] at h
      rw [Trace.pre_events, List.any_append, List.any_append] at h
      have hlist : (if args.pattern.isNone then files.map Event.fileName
          else ([] : List Event)).any isRenameEvent = false :=
        any_isRename_listEvs _ files
      simp only [List.any_append, hlist, List.any_cons, List.any_nil,
        isRenameEvent, Bool.false_or, Bool.or_false] at h
      obtain ⟨tokens, hp, hm, hr, hd⟩ := runRest_rename_inv _ _ _ _ _ _ _ h
      exact ⟨_, _, _, _, tokens, hp, hm, hr, hd⟩

theorem run_rename_inv (args : Args) (isDir : Bool)
    (enumRes : Except Unit (List String)) (stdin : List String)
    (rs : String → String → Bool)
    (h : (run args isDir enumRes stdin rs).events.any isRenameEvent = true) :
    ∃ pS fS tS stdin2 files tokens,
      enumRes = .ok files ∧ parsePattern pS = .ok tokens ∧
      files.filter (fun n => globMatches tokens n) ≠ [] ∧
      computeRenames fS tS (files.filter (fun n => globMatches tokens n)) ≠ [] ∧
      (confirmDecision args.yes stdin2).2.1 = true := by
  cases isDir with
  | false =>
    rw [run_not_a_dir] at h
    simp at h
  | true =>
    cases enumRes with
    | error e =>
      cases e
      rw [run_enum_err] at h
      simp [isRenameEvent] at h
    | ok files =>
      by_cases hfe : files = []
      · subst hfe
        rw [run_empty_dir] at h
        simp [isRenameEvent] at h
      · by_cases hmode :
          args.pattern = none ∨ args.from_str = none ∨ args.to_str = none
        · obtain ⟨pS, fS, tS, stdin2, tokens, hp, hm, hr, hd⟩ :=
            run_interactive_rename_inv args files stdin rs hmode hfe h
          exact ⟨pS, fS, tS, stdin2, files, tokens, rfl, hp, hm, hr, hd⟩
        · push_neg at hmode
          obtain ⟨hpn, hfn, htn⟩ := hmode
          obtain ⟨p, hp⟩ := Option.ne_none_iff_exists'.mp hpn
          obtain ⟨f, hf⟩ := Option.ne_none_iff_exists'.mp hfn
          obtain ⟨t, ht⟩ := Option.ne_none_iff_exists'.mp htn
          have hargs : args = ⟨some p, some f, some t, args.yes⟩ := by
            obtain ⟨a, b, c, d⟩ := args
            simp_all
          rw [hargs, run_all_some p f t args.yes files stdin rs hfe,
            Trace.pre_events] at h
          simp only [List.any_append, List.any_cons, List.any_nil,
            isRenameEvent, Bool.false_or, Bool.or_false] at h
          obtain ⟨tokens, hpp, hm, hr, hd⟩ := runRest_rename_inv _ _ _ _ _ _ _ h
          exact ⟨p, f, t, stdin, files, tokens, rfl, hpp, hm, hr, hd⟩

/-- C5: no filesystem rename is ever attempted unless the plan is
non-empty and the confirmation decision is proceed.  Part one: an empty
plan (after the old = new filter) shows no confirmation prompt and
produces no rename attempt.  Part two: an abort decision produces no
rename attempt, the run result is `Ok`, and (when a plan had been shown)
cancellation is reported.  Part three: globally, any rename attempt in
any run implies the enumeration succeeded, the pattern compiled, the
match result and the plan were non-empty, and the confirmation decision
at the remaining input was proceed. -/
theorem no_rename_unless_confirmed :
    (∀ (p f t : String) (yes : Bool) (files stdin : List String)
        (rs : String → String → Bool) (tokens : List Token),
      parsePattern p = .ok tokens →
      computeRenames f t (files.filter (fun n => globMatches tokens n)) = [] →
      (runRest p f t yes files stdin rs).events.any isRenameEvent = false ∧
        Event.confirmPrompt ∉ (runRest p f t yes files stdin rs).events) ∧
    (∀ (p f t : String) (yes : Bool) (files stdin : List String)
        (rs : String → String → Bool) (tokens : List Token),
      parsePattern p = .ok tokens →
      (confirmDecision yes stdin).2.1 = false →
      (runRest p f t yes files stdin rs).events.any isRenameEvent = false ∧
        (runRest p f t yes files stdin rs).result = .ok () ∧
        (computeRenames f t (files.filter (fun n => globMatches tokens n)) ≠ [] →
          Event.cancelled ∈ (runRest p f t yes files stdin rs).events)) ∧
    (∀ (args : Args) (isDir : Bool) (enumRes : Except Unit (List String))
        (stdin : List String) (rs : String → String → Bool),
      (run args isDir enumRes stdin rs).events.any isRenameEvent = true →
      ∃ pS fS tS stdin2 files tokens,
        enumRes = .ok files ∧ parsePattern pS = .ok tokens ∧
        files.filter (fun n => globMatches tokens n) ≠ [] ∧
        computeRenames fS tS (files.filter (fun n => globMatches tokens n)) ≠ [] ∧
        (confirmDecision args.yes stdin2).2.1 = true) := by
  refine ⟨?_, ?_, run_rename_inv⟩
  · intro p f t yes files stdin rs tokens hp hr
    by_cases hm : files.filter (fun n => globMatches tokens n) = []
    · rw [runRest_noMatches p f t yes files stdin rs tokens hp hm]
      refine ⟨by decide, by simp⟩
    · rw [runRest_noRenames p f t yes files stdin rs tokens hp hm hr]
      refine ⟨by decide, by simp⟩
  · intro p f t yes files stdin rs tokens hp hd
    by_cases hm : files.filter (fun n => globMatches tokens n) = []
    · rw [runRest_noMatches p f t yes files stdin rs tokens hp hm]
      refine ⟨by decide, rfl, fun hne => ?_⟩
      exact absurd (by rw [hm]; rfl) hne
    · by_cases hr :
        computeRenames f t (files.filter (fun n => globMatches tokens n)) = []
      · rw [runRest_noRenames p f t yes files stdin rs tokens hp hm hr]
        exact ⟨by decide, rfl, fun hne => absurd hr hne⟩
      · rw [runRest_abort p f t yes files stdin rs tokens hp hm hr hd]
        refine ⟨?_, rfl, fun _ => ?_⟩
        · cases yes <;>
            simp [List.any_append, any_isRename_preview, isRenameEvent]
        · simp

theorem no_rename_unless_confirmed_witness :
    (runRest "*" "a" "b" false ["ab"] ["n"]
      (fun _ _ => true)).events.any isRenameEvent = false ∧
    (runRest "*" "a" "b" false ["ab"] ["n"]
      (fun _ _ => true)).result = .ok () := by
  have h := no_rename_unless_confirmed.2.1 "*" "a" "b" false ["ab"] ["n"]
    (fun _ _ => true) [Token.anySequence]
    (by simp [parsePattern, parseTokens]) (by decide)
  exact ⟨h.1, h.2.1⟩

/-! ### Mode selection and interactive cancellation -/

theorem tailEvent_previews (l : List (String × String)) :
    ∀ e ∈ l.map (fun q => Event.preview q.1 q.2), isTailEvent e = true := by
  intro e he
  obtain ⟨q, _, rfl⟩ := List.mem_map.mp he
  rfl

theorem tailEvent_exec (rs : String → String → Bool)
    (l : List (String × String)) :
    ∀ e ∈ executeRenames rs l, isTailEvent e = true := by
  intro e he
  obtain ⟨q, _, rfl⟩ := List.mem_map.mp he
  by_cases h : rs q.1 q.2 <;> simp [h, isTailEvent]

theorem runRest_events_tail (p f t : String) (yes : Bool)
    (files stdin : List String) (rs : String → String → Bool) :
    ∀ e ∈ (runRest p f t yes files stdin rs).events,
      isTailEvent e = true ∨ e = Event.cancelled := by
  intro e he
  cases hp : parsePattern p with
  | error err =>
    rw [runRest_parse_err p f t yes files stdin rs err hp] at he
    simp at he
  | ok tokens =>
    by_cases hm : files.filter (fun n => globMatches tokens n) = []
    · rw [runRest_noMatches p f t yes files stdin rs tokens hp hm] at he
      simp at he
      subst he
      exact Or.inl rfl
    · by_cases hr :
        computeRenames f t (files.filter (fun n => globMatches tokens n)) = []
      · rw [runRest_noRenames p f t yes files stdin rs tokens hp hm hr] at he
        simp at he
        rcases he with rfl | rfl
        · exact Or.inl rfl
        · exact Or.inl rfl
      · cases hd : (confirmDecision yes stdin).2.1 with
        | true =>
          rw [runRest_proceed p f t yes files stdin rs tokens hp hm hr hd] at he
          simp only [List.mem_append, List.mem_cons, List.mem_singleton,
            List.not_mem_nil] at he
          rcases he with ((((he | he) | he) | he) | he) | he
          · rcases he with he | he
            · subst he; exact Or.inl rfl
            · simp at he
          · exact Or.inl (tailEvent_previews _ e he)
          · cases yes <;> simp_all [isTailEvent]
          · rcases he with he | he
            · subst he; exact Or.inl rfl
            · simp at he
          · exact Or.inl (tailEvent_exec rs _ e he)
          · rcases he with he | he
            · subst he; exact Or.inl rfl
            · simp at he
        | false =>
          rw [runRest_abort p f t yes files stdin rs tokens hp hm hr hd] at he
          simp only [List.mem_append, List.mem_cons, List.mem_singleton,
            List.not_mem_nil] at he
          rcases he with ((he | he) | he) | he
          · rcases he with he | he
            · subst he; exact Or.inl rfl
            · simp at he
          · exact Or.inl (tailEvent_previews _ e he)
          · cases yes <;> simp_all [isTailEvent]
          · rcases he with he | he
            · subst he; exact Or.inr rfl
            · simp at he

theorem runRest_no_fileName (n : String) (p f t : String) (yes : Bool)
    (files stdin : List String) (rs : String → String → Bool) :
    Event.fileName n ∉ (runRest p f t yes files stdin rs).events := by
  intro hmem
  rcases runRest_events_tail p f t yes files stdin rs _ hmem with h | h
  · simp [isTailEvent] at h
  · simp at h

/-- C9: when the directory contains no (listable) regular files, `run`
prints the emptiness message and returns `Ok` before the glob pattern is
compiled and before any interactive prompt: even a pattern argument
whose compilation would fail produces no pattern-syntax error and no
prompt. -/
theorem empty_dir_before_pattern (args : Args) (stdin : List String)
    (rs : String → String → Bool) (pS : String) (e : PatternError)
    (_hp : args.pattern = some pS) (_he : parsePattern pS = .error e) :
    run args true (.ok []) stdin rs =
      ⟨[Event.listHeader, Event.emptyDirMsg], .ok ()⟩ ∧
    (run args true (.ok []) stdin rs).result ≠ .error RunError.badPattern ∧
    Event.promptPattern ∉ (run args true (.ok []) stdin rs).events := by
  have heq := run_empty_dir args stdin rs
  refine ⟨heq, ?_, ?_⟩ <;> rw [heq] <;> simp

theorem empty_dir_before_pattern_witness :
    run ⟨some "[", none, none, false⟩ true (.ok []) [] (fun _ _ => true) =
      ⟨[Event.listHeader, Event.emptyDirMsg], .ok ()⟩ :=
  (empty_dir_before_pattern ⟨some "[", none, none, false⟩ [] (fun _ _ => true)
    "[" ⟨0, ErrMsg.invalidRange⟩ rfl (by simp [parsePattern, parseTokens])).1

/-- C8: in interactive mode (not all three of pattern, A, B supplied),
an empty trimmed pattern input, or an empty trimmed A input, cancels:
an informational cancellation event is emitted, the process returns
`Ok`, no later pipeline stage runs and no rename is attempted. -/
theorem interactive_empty_input_cancel (args : Args)
    (files stdin : List String) (rs : String → String → Bool)
    (hmode : args.pattern = none ∨ args.from_str = none ∨ args.to_str = none)
    (hfe : files ≠ []) :
    (trimChars (readLine stdin).1 = "" →
      run args true (.ok files) stdin rs =
        ⟨[Event.listHeader] ++
            (if args.pattern.isNone then files.map Event.fileName else []) ++
            [Event.promptPattern, Event.cancelledEmptyPattern], .ok ()⟩) ∧
    (trimChars (readLine stdin).1 ≠ "" →
      trimChars (readLine (readLine stdin).2).1 = "" →
      run args true (.ok files) stdin rs =
        ⟨[Event.listHeader] ++
            (if args.pattern.isNone then files.map Event.fileName else []) ++
            [Event.promptPattern, Event.promptFrom,
              Event.cancelledEmptyFrom], .ok ()⟩) ∧
    (trimChars (readLine stdin).1 = "" ∨
        trimChars (readLine (readLine stdin).2).1 = "" →
      (run args true (.ok files) stdin rs).result = .ok () ∧
      (run args true (.ok files) stdin rs).events.any isRenameEvent = false) := by
  have hc1 : trimChars (readLine stdin).1 = "" →
      run args true (.ok files) stdin rs =
        ⟨[Event.listHeader] ++
            (if args.pattern.isNone then files.map Event.fileName else []) ++
            [Event.promptPattern, Event.cancelledEmptyPattern], .ok ()⟩ := by
    intro h1
    rw [run_interactive args files stdin rs hmode hfe]
    simp only [h1, reduceIte]
  have hc2 : trimChars (readLine stdin).1 ≠ "" →
      trimChars (readLine (readLine stdin).2).1 = "" →
      run args true (.ok files) stdin rs =
        ⟨[Event.listHeader] ++
            (if args.pattern.isNone then files.map Event.fileName else []) ++
            [Event.promptPattern, Event.promptFrom,
              Event.cancelledEmptyFrom], .ok ()⟩ := by
    intro h1 h2
    rw [run_interactive args files stdin rs hmode hfe]
    simp only [h1, h2, reduceIte]
  refine ⟨hc1, hc2, ?_⟩
  intro h
  by_cases h1 : trimChars (readLine stdin).1 = ""
  · rw [hc1 h1]
    refine ⟨rfl, ?_⟩
    simp only [Trace.mk.injEq, List.any_append, any_isRename_listEvs,
      List.any_cons, List.any_nil, isRenameEvent, Bool.or_false,
      Bool.false_or]
  · have h2 : trimChars (readLine (readLine stdin).2).1 = "" := by
      rcases h with h | h
      · exact absurd h h1
      · exact h
    rw [hc2 h1 h2]
    refine ⟨rfl, ?_⟩
    simp only [Trace.mk.injEq, List.any_append, any_isRename_listEvs,
      List.any_cons, List.any_nil, isRenameEvent, Bool.or_false,
      Bool.false_or]

theorem interactive_empty_input_cancel_witness :
    run ⟨none, none, none, false⟩ true (.ok ["a"]) [] (fun _ _ => true) =
      ⟨[Event.listHeader, Event.fileName "a", Event.promptPattern,
          Event.cancelledEmptyPattern], .ok ()⟩ := by
  have h := (interactive_empty_input_cancel ⟨none, none, none, false⟩ ["a"] []
    (fun _ _ => true) (Or.inl rfl) (by simp)).1 (by decide)
  simpa using h

theorem exists_fileName_mem_iff (files : List String) (hfe : files ≠ [])
    (b : Bool) (pre post : List Event)
    (hpre : ∀ n, Event.fileName n ∉ pre)
    (hpost : ∀ n, Event.fileName n ∉ post) :
    (∃ n, Event.fileName n ∈
      pre ++ (if b then files.map Event.fileName else []) ++ post) ↔
      b = true := by
  constructor
  · rintro ⟨n, hn⟩
    rcases List.mem_append.mp hn with hn | hn
    · rcases List.mem_append.mp hn with hn | hn
      · exact absurd hn (hpre n)
      · cases b
        · simp at hn
        · rfl
    · exact absurd hn (hpost n)
  · intro hb
    subst hb
    obtain ⟨a, l, rfl⟩ : ∃ a l, files = a :: l := by
      cases files with
      | nil => exact absurd rfl hfe
      | cons a l => exact ⟨a, l, rfl⟩
    exact ⟨a, by simp⟩

/-- C1 counterexample: supplying the pattern argument alone (A and B
absent) runs interactive prompting, but the enumerated file list is NOT
printed — the claim requires the full list to be printed in this case.
Here the directory holds `a.txt`, yet no `fileName` event appears. -/
theorem mode_selection_counterexample :
    run ⟨some "*", none, none, false⟩ true (.ok ["a.txt"]) []
        (fun _ _ => true) =
      ⟨[Event.listHeader, Event.promptPattern, Event.cancelledEmptyPattern],
        .ok ()⟩ ∧
    Event.promptPattern ∈
      (run ⟨some "*", none, none, false⟩ true (.ok ["a.txt"]) []
        (fun _ _ => true)).events ∧
    Event.fileName "a.txt" ∉
      (run ⟨some "*", none, none, false⟩ true (.ok ["a.txt"]) []
        (fun _ _ => true)).events := by
  decide

/-- C1 (amended): mode selection is all-or-nothing — whenever not all
three of (pattern, A, B) are supplied, the whole triple is obtained by
prompting (pattern is always prompted; A and B are prompted unless an
earlier empty input cancelled) — but the full enumerated file list is
printed exactly when the pattern argument is absent, not in every
interactive invocation. -/
theorem mode_selection_amended (args : Args) (files stdin : List String)
    (rs : String → String → Bool)
    (hmode : args.pattern = none ∨ args.from_str = none ∨ args.to_str = none)
    (hfe : files ≠ []) :
    Event.promptPattern ∈ (run args true (.ok files) stdin rs).events ∧
    (trimChars (readLine stdin).1 ≠ "" →
      Event.promptFrom ∈ (run args true (.ok files) stdin rs).events) ∧
    (trimChars (readLine stdin).1 ≠ "" →
      trimChars (readLine (readLine stdin).2).1 ≠ "" →
      Event.promptTo ∈ (run args true (.ok files) stdin rs).events) ∧
    ((∃ n, Event.fileName n ∈ (run args true (.ok files) stdin rs).events) ↔
      args.pattern = none) := by
  rw [← Option.isNone_iff_eq_none]
  by_cases h1 : trimChars (readLine stdin).1 = ""
  · have heq : run args true (.ok files) stdin rs =
        ⟨[Event.listHeader] ++
            (if args.pattern.isNone then files.map Event.fileName else []) ++
            [Event.promptPattern, Event.cancelledEmptyPattern], .ok ()⟩ := by
      rw [run_interactive args files stdin rs hmode hfe]
      simp only [h1, reduceIte]
    rw [heq]
    refine ⟨by simp, fun hne => absurd h1 hne, fun hne _ => absurd h1 hne, ?_⟩
    exact exists_fileName_mem_iff files hfe _ [Event.listHeader]
      [Event.promptPattern, Event.cancelledEmptyPattern]
      (fun n => by simp) (fun n => by simp)
  · by_cases h2 : trimChars (readLine (readLine stdin).2).1 = ""
    · have heq : run args true (.ok files) stdin rs =
          ⟨[Event.listHeader] ++
              (if args.pattern.isNone then files.map Event.fileName else []) ++
              [Event.promptPattern, Event.promptFrom,
                Event.cancelledEmptyFrom], .ok ()⟩ := by
        rw [run_interactive args files stdin rs hmode hfe]
        simp only [h1, h2, reduceIte]
      rw [heq]
      refine ⟨by simp, fun _ => by simp, fun _ hne => absurd h2 hne, ?_⟩
      exact exists_fileName_mem_iff files hfe _ [Event.listHeader]
        [Event.promptPattern, Event.promptFrom, Event.cancelledEmptyFrom]
        (fun n => by simp) (fun n => by simp)
    · have heq : run args true (.ok files) stdin rs =
          Trace.pre
            ([Event.listHeader] ++
              (if args.pattern.isNone then files.map Event.fileName else []) ++
              [Event.promptPattern, Event.promptFrom, Event.promptTo])
            (runRest (trimChars (readLine stdin).1)
              (trimChars (readLine (readLine stdin).2).1)
              (trimChars (readLine (readLine (readLine stdin).2).2).1)
              args.yes files (readLine (readLine (readLine stdin).2).2).2
              rs) := by
        rw [run_interactive args files stdin rs hmode hfe]
        simp only [h1, h2, reduceIte]
      rw [heq, Trace.pre_events, List.append_assoc, List.append_assoc]
      rw [← List.append_assoc ([Event.listHeader] : List Event)]
      refine ⟨by simp, fun _ => by simp, fun _ _ => by simp, ?_⟩
      exact exists_fileName_mem_iff files hfe _ [Event.listHeader] _
        (fun n => by simp)
        (fun n => by
          simp only [List.mem_append, List.mem_cons, List.not_mem_nil]
          rintro ((h | h | h | h) | h)
          · exact Event.noConfusion h
          · exact Event.noConfusion h
          · exact Event.noConfusion h
          · exact h
          · exact runRest_no_fileName n _ _ _ _ _ _ _ h)

theorem mode_selection_amended_witness :
    Event.promptPattern ∈
      (run ⟨some "*", none, none, false⟩ true (.ok ["a.txt"])
        ["p", "x", "y"] (fun _ _ => true)).events :=
  (mode_selection_amended ⟨some "*", none, none, false⟩ ["a.txt"]
    ["p", "x", "y"] (fun _ _ => true) (Or.inr (Or.inl rfl)) (by simp)).1

/-! ### The enumerator -/

theorem listFilesCore_nil (acc : List String) :
    listFilesCore [] acc = .ok acc := rfl

theorem listFilesCore_entryErr (rest : List DirItem) (acc : List String) :
    listFilesCore (DirItem.entryErr :: rest) acc = .error () := rfl

theorem listFilesCore_cons_entry (ftErr isFile : Bool) (name : Option String)
    (rest : List DirItem) (acc : List String) :
    listFilesCore (DirItem.entry ftErr isFile name :: rest) acc =
      if ftErr then .error ()
      else
        (let files' :=
          if isFile then
            match name with
            | some n => acc ++ [n]
            | none => acc
          else acc
         if 50 ≤ files'.length then .ok files'
         else listFilesCore rest files') := rfl

theorem validNames_cons_file (n : String) (rest : List DirItem) :
    validNames (DirItem.entry false true (some n) :: rest) =
      n :: validNames rest := by
  simp [validNames, List.filterMap_cons]

theorem validNames_cons_skip (ftErr isFile : Bool) (name : Option String)
    (rest : List DirItem)
    (h : ftErr = true ∨ isFile = false ∨ name = none) :
    validNames (DirItem.entry ftErr isFile name :: rest) = validNames rest := by
  rcases h with rfl | rfl | rfl
  · cases isFile <;> cases name <;> simp [validNames, List.filterMap_cons]
  · cases ftErr <;> cases name <;> simp [validNames, List.filterMap_cons]
  · cases ftErr <;> cases isFile <;> simp [validNames, List.filterMap_cons]

theorem listFilesCore_good :
    ∀ (items : List DirItem) (acc : List String),
      (∀ i ∈ items, i.isErr = false) → acc.length < 50 →
      listFilesCore items acc = .ok ((acc ++ validNames items).take 50) := by
  intro items
  induction items with
  | nil =>
    intro acc _ hacc
    simp [listFilesCore, validNames,
      List.take_of_length_le (Nat.le_of_lt hacc)]
  | cons i rest ih =>
    intro acc hgood hacc
    have hrest : ∀ j ∈ rest, j.isErr = false := fun j hj =>
      hgood j (List.mem_cons_of_mem _ hj)
    cases i with
    | entryErr =>
      have := hgood _ (List.mem_cons_self _ _)
      simp [DirItem.isErr] at this
    | entry ftErr isFile name =>
      have hft : ftErr = false := by
        have := hgood _ (List.mem_cons_self _ _)
        simpa [DirItem.isErr] using this
      subst hft
      rw [listFilesCore_cons_entry]
      simp only [if_false, Bool.false_eq_true, reduceIte]
      cases isFile with
      | false =>
        simp only [Bool.false_eq_true, reduceIte]
        rw [if_neg (by omega)]
        rw [validNames_cons_skip _ _ _ _ (Or.inr (Or.inl rfl))]
        exact ih acc hrest hacc
      | true =>
        cases name with
        | none =>
          simp only [reduceIte]
          rw [if_neg (by omega)]
          rw [validNames_cons_skip _ _ _ _ (Or.inr (Or.inr rfl))]
          exact ih acc hrest hacc
        | some n =>
          simp only [reduceIte]
          rw [validNames_cons_file]
          by_cases hlen : 50 ≤ (acc ++ [n]).length
          · rw [if_pos hlen]
            have hl : (acc ++ [n]).length = 50 := by
              simp only [List.length_append, List.length_singleton] at hlen ⊢
              omega
            rw [show acc ++ n :: validNames rest =
                (acc ++ [n]) ++ validNames rest by simp]
            rw [List.take_left' hl]
          · rw [if_neg hlen]
            have hacc' : (acc ++ [n]).length < 50 := by omega
            rw [ih (acc ++ [n]) hrest hacc']
            rw [show acc ++ n :: validNames rest =
                (acc ++ [n]) ++ validNames rest by simp]

theorem listFilesCore_shape :
    ∀ (items : List DirItem) (acc res : List String),
      listFilesCore items acc = .ok res →
      ∃ pre suf, items = pre ++ suf ∧ (∀ i ∈ pre, i.isErr = false) ∧
        res = acc ++ validNames pre := by
  intro items
  induction items with
  | nil =>
    intro acc res h
    rw [listFilesCore_nil] at h
    cases h
    exact ⟨[], [], rfl, by simp, by simp [validNames]⟩
  | cons i rest ih =>
    intro acc res h
    cases i with
    | entryErr => rw [listFilesCore_entryErr] at h; cases h
    | entry ftErr isFile name =>
      rw [listFilesCore_cons_entry] at h
      cases ftErr with
      | true => simp at h
      | false =>
        simp only [Bool.false_eq_true, reduceIte] at h
        cases isFile with
        | false =>
          simp only [Bool.false_eq_true, reduceIte] at h
          by_cases hlen : 50 ≤ acc.length
          · rw [if_pos hlen] at h
            cases h
            exact ⟨[DirItem.entry false false name], rest, rfl, by simp [DirItem.isErr],
              by rw [validNames_cons_skip _ _ _ _ (Or.inr (Or.inl rfl))]
                 simp [validNames]⟩
          · rw [if_neg hlen] at h
            obtain ⟨pre, suf, heq, hgood, hres⟩ := ih acc res h
            refine ⟨DirItem.entry false false name :: pre, suf, by rw [heq]; rfl, ?_, ?_⟩
            · intro j hj
              rcases List.mem_cons.mp hj with rfl | hj
              · rfl
              · exact hgood j hj
            · rw [validNames_cons_skip _ _ _ _ (Or.inr (Or.inl rfl))]
              exact hres
        | true =>
          cases name with
          | none =>
            simp only [reduceIte] at h
            by_cases hlen : 50 ≤ acc.length
            · rw [if_pos hlen] at h
              cases h
              exact ⟨[DirItem.entry false true none], rest, rfl,
                by simp [DirItem.isErr],
                by rw [validNames_cons_skip _ _ _ _ (Or.inr (Or.inr rfl))]
                   simp [validNames]⟩
            · rw [if_neg hlen] at h
              obtain ⟨pre, suf, heq, hgood, hres⟩ := ih acc res h
              refine ⟨DirItem.entry false true none :: pre, suf, by rw [heq]; rfl, ?_, ?_⟩
              · intro j hj
                rcases List.mem_cons.mp hj with rfl | hj
                · rfl
                · exact hgood j hj
              · rw [validNames_cons_skip _ _ _ _ (Or.inr (Or.inr rfl))]
                exact hres
          | some n =>
            simp only [reduceIte] at h
            by_cases hlen : 50 ≤ (acc ++ [n]).length
            · rw [if_pos hlen] at h
              cases h
              refine ⟨[DirItem.entry false true (some n)], rest, rfl,
                by simp [DirItem.isErr], ?_⟩
              rw [validNames_cons_file]
              simp [validNames]
            · rw [if_neg hlen] at h
              obtain ⟨pre, suf, heq, hgood, hres⟩ := ih (acc ++ [n]) res h
              refine ⟨DirItem.entry false true (some n) :: pre, suf,
                by rw [heq]; rfl, ?_, ?_⟩
              · intro j hj
                rcases List.mem_cons.mp hj with rfl | hj
                · rfl
                · exact hgood j hj
              · rw [validNames_cons_file, hres]
                simp

theorem listFilesCore_len :
    ∀ (items : List DirItem) (acc res : List String), acc.length < 50 →
      listFilesCore items acc = .ok res → res.length ≤ 50 := by
  intro items
  induction items with
  | nil =>
    intro acc res hacc h
    rw [listFilesCore_nil] at h
    cases h
    omega
  | cons i rest ih =>
    intro acc res hacc h
    cases i with
    | entryErr => rw [listFilesCore_entryErr] at h; cases h
    | entry ftErr isFile name =>
      rw [listFilesCore_cons_entry] at h
      cases ftErr with
      | true => simp at h
      | false =>
        simp only [Bool.false_eq_true, reduceIte] at h
        have key : ∀ files' : List String, files'.length ≤ acc.length + 1 →
            (if 50 ≤ files'.length then Except.ok files'
              else listFilesCore rest files') = .ok res → res.length ≤ 50 := by
          intro files' hlen' h'
          by_cases hlen : 50 ≤ files'.length
          · rw [if_pos hlen] at h'
            cases h'
            omega
          · rw [if_neg hlen] at h'
            exact ih files' res (by omega) h'
        cases isFile with
        | false => exact key acc (by omega) (by simpa using h)
        | true =>
          cases name with
          | none => exact key acc (by omega) (by simpa using h)
          | some n => exact key (acc ++ [n]) (by simp) (by simpa using h)

theorem listFilesCore_err :
    ∀ (l1 : List DirItem) (bad : DirItem) (l2 : List DirItem)
      (acc : List String),
      (∀ i ∈ l1, i.isErr = false) → bad.isErr = true →
      acc.length + (validNames l1).length < 50 →
      listFilesCore (l1 ++ bad :: l2) acc = .error () := by
  intro l1
  induction l1 with
  | nil =>
    intro bad l2 acc _ hbad _
    cases bad with
    | entryErr => rfl
    | entry ftErr isFile name =>
      have : ftErr = true := by simpa [DirItem.isErr] using hbad
      subst this
      rfl
  | cons i rest ih =>
    intro bad l2 acc hgood hbad hlt
    have hrest : ∀ j ∈ rest, j.isErr = false := fun j hj =>
      hgood j (List.mem_cons_of_mem _ hj)
    cases i with
    | entryErr =>
      have := hgood _ (List.mem_cons_self _ _)
      simp [DirItem.isErr] at this
    | entry ftErr isFile name =>
      have hft : ftErr = false := by
        have := hgood _ (List.mem_cons_self _ _)
        simpa [DirItem.isErr] using this
      subst hft
      rw [List.cons_append, listFilesCore_cons_entry]
      simp only [Bool.false_eq_true, reduceIte]
      cases isFile with
      | false =>
        rw [validNames_cons_skip _ _ _ _ (Or.inr (Or.inl rfl))] at hlt
        simp only [Bool.false_eq_true, reduceIte]
        rw [if_neg (by omega)]
        exact ih bad l2 acc hrest hbad hlt
      | true =>
        cases name with
        | none =>
          rw [validNames_cons_skip _ _ _ _ (Or.inr (Or.inr rfl))] at hlt
          simp only [reduceIte]
          rw [if_neg (by omega)]
          exact ih bad l2 acc hrest hbad hlt
        | some n =>
          rw [validNames_cons_file] at hlt
          simp only [List.length_cons] at hlt
          simp only [reduceIte]
          rw [if_neg (by simp; omega)]
          exact ih bad l2 (acc ++ [n]) hrest hbad (by simp; omega)

theorem listFilesCore_skip_nonunicode :
    ∀ (l1 : List DirItem) (isF : Bool) (l2 : List DirItem)
      (acc : List String), acc.length < 50 →
      listFilesCore (l1 ++ DirItem.entry false isF none :: l2) acc =
        listFilesCore (l1 ++ l2) acc := by
  intro l1
  induction l1 with
  | nil =>
    intro isF l2 acc hacc
    rw [List.nil_append, List.nil_append, listFilesCore_cons_entry]
    cases isF <;>
      simp only [Bool.false_eq_true, reduceIte] <;>
      rw [if_neg (by omega)]
  | cons i rest ih =>
    intro isF l2 acc hacc
    rw [List.cons_append, List.cons_append]
    cases i with
    | entryErr => rw [listFilesCore_entryErr, listFilesCore_entryErr]
    | entry ftErr isFile name =>
      rw [listFilesCore_cons_entry, listFilesCore_cons_entry]
      cases ftErr with
      | true => simp
      | false =>
        simp only [Bool.false_eq_true, reduceIte]
        have key : ∀ files' : List String, files'.length ≤ acc.length + 1 →
            (if 50 ≤ files'.length then Except.ok files'
              else listFilesCore (rest ++ DirItem.entry false isF none :: l2)
                files') =
            (if 50 ≤ files'.length then Except.ok files'
              else listFilesCore (rest ++ l2) files') := by
          intro files' hlen'
          by_cases hlen : 50 ≤ files'.length
          · rw [if_pos hlen, if_pos hlen]
          · rw [if_neg hlen, if_neg hlen]
            exact ih isF l2 files' (by omega)
        cases isFile with
        | false => exact key acc (by omega)
        | true =>
          cases name with
          | none => exact key acc (by omega)
          | some n => exact key (acc ++ [n]) (by simp)

theorem charsLe_total : ∀ a b : List Char, charsLe a b = true ∨ charsLe b a = true
  | [], _ => Or.inl rfl
  | _ :: _, [] => Or.inr rfl
  | a :: as, b :: bs => by
    rcases lt_trichotomy a b with h | h | h
    · left; simp [charsLe, h]
    · subst h
      rcases charsLe_total as bs with h2 | h2
      · left; simp [charsLe, h2]
      · right; simp [charsLe, h2]
    · right; simp [charsLe, h]

theorem charsLe_trans : ∀ a b c : List Char,
    charsLe a b = true → charsLe b c = true → charsLe a c = true
  | [], _, _, _, _ => rfl
  | _ :: _, [], _, h1, _ => by simp [charsLe] at h1
  | _ :: _, _ :: _, [], _, h2 => by simp [charsLe] at h2
  | a :: as, b :: bs, c :: cs, h1, h2 => by
    simp only [charsLe] at h1 h2 ⊢
    by_cases hab : a < b
    · by_cases hbc : b < c
      · simp [lt_trans hab hbc]
      · by_cases hcb : c < b
        · simp [hbc, hcb] at h2
        · have : b = c := le_antisymm (not_lt.mp hcb) (not_lt.mp hbc)
          subst this
          simp [hab]
    · by_cases hba : b < a
      · simp [hab, hba] at h1
      · have : a = b := le_antisymm (not_lt.mp hba) (not_lt.mp hab)
        subst this
        simp only [lt_irrefl, reduceIte] at h1
        by_cases hbc : a < c
        · simp [hbc]
        · by_cases hcb : c < a
          · simp [hbc, hcb] at h2
          · have : a = c := le_antisymm (not_lt.mp hcb) (not_lt.mp hbc)
            subst this
            simp only [lt_irrefl, reduceIte] at h2 ⊢
            exact charsLe_trans as bs cs h1 h2


theorem sortStrings_sorted (l : List String) :
    List.Sorted (fun a b => strLe a b = true) (sortStrings l) :=
  @List.sorted_insertionSort String (fun a b => strLe a b = true) _
    ⟨fun a b => charsLe_total a.data b.data⟩
    ⟨fun a b c => charsLe_trans a.data b.data c.data⟩ l

theorem sortStrings_perm (l : List String) :
    List.Perm (sortStrings l) l :=
  List.perm_insertionSort _ l

theorem validNames_mem (n : String) (items : List DirItem) :
    n ∈ validNames items ↔ DirItem.entry false true (some n) ∈ items := by
  simp only [validNames, List.mem_filterMap]
  constructor
  · rintro ⟨i, hi, hfi⟩
    cases i with
    | entryErr => simp at hfi
    | entry ft isf nm =>
      cases ft <;> cases isf <;> cases nm <;> simp_all
  · intro hi
    exact ⟨_, hi, rfl⟩

theorem isOkE_map (f : List String → List String)
    (e : Except Unit (List String)) : isOkE (e.map f) = isOkE e := by
  cases e <;> rfl

/-- C7 counterexample: a readable directory whose 51st entry's metadata
query fails, after 50 regular files, is enumerated successfully —
refuting the claim that a metadata-query failure always makes the
enumerator fail (the 50-entry cap stops the loop before the bad entry). -/
theorem enumerator_counterexample :
    DirItem.entry true false none ∈ c7CexItems ∧
    (DirItem.entry true false none).isErr = true ∧
    isOkE (list_files_in_dir (.ok c7CexItems)) = true := by
  refine ⟨by decide, rfl, ?_⟩
  show isOkE ((listFilesCore c7CexItems []).map sortStrings) = true
  rw [isOkE_map]
  decide

/-- C7 (amended): the enumerator fails if the directory cannot be read;
for every readable directory, the output is lexicographically sorted,
has length at most 50, contains only (valid-Unicode) base names of
entries classified as regular files, and has no duplicates whenever the
directory's file names are distinct; when all entries are readable, the
output is exactly the sorted first-50 prefix of the collected names
(enumeration stops once 50 qualifying entries have been collected,
before sorting); and a metadata-query or entry error makes the
enumerator fail provided the failing entry is reached before 50
qualifying entries have been collected. -/
theorem enumerator_spec :
    list_files_in_dir (.error ()) = .error () ∧
    (∀ (items : List DirItem) (res : List String),
      list_files_in_dir (.ok items) = .ok res →
      List.Sorted (fun a b => strLe a b = true) res ∧ res.length ≤ 50 ∧
      (∀ n ∈ res, DirItem.entry false true (some n) ∈ items) ∧
      ((validNames items).Nodup → res.Nodup)) ∧
    (∀ items : List DirItem, (∀ i ∈ items, i.isErr = false) →
      list_files_in_dir (.ok items) =
        .ok (sortStrings ((validNames items).take 50))) ∧
    (∀ (l1 : List DirItem) (bad : DirItem) (l2 : List DirItem),
      (∀ i ∈ l1, i.isErr = false) → bad.isErr = true →
      (validNames l1).length < 50 →
      list_files_in_dir (.ok (l1 ++ bad :: l2)) = .error ()) := by
  refine ⟨rfl, ?_, ?_, ?_⟩
  · intro items res h
    have h0 : ∃ res0, listFilesCore items [] = .ok res0 ∧ res = sortStrings res0 := by
      revert h
      show (listFilesCore items []).map sortStrings = .ok res → _
      cases hc : listFilesCore items [] with
      | error e => intro h; simp [Except.map] at h
      | ok res0 =>
        intro h
        simp only [Except.map, Except.ok.injEq] at h
        exact ⟨res0, rfl, h.symm⟩
    obtain ⟨res0, hc, rfl⟩ := h0
    obtain ⟨pre, suf, heq, hgood, hres0⟩ := listFilesCore_shape items [] res0 hc
    refine ⟨sortStrings_sorted res0, ?_, ?_, ?_⟩
    · rw [(sortStrings_perm res0).length_eq]
      exact listFilesCore_len items [] res0 (by simp) hc
    · intro n hn
      have hn0 : n ∈ res0 := (sortStrings_perm res0).subset hn
      rw [hres0, List.nil_append] at hn0
      have := (validNames_mem n pre).mp hn0
      rw [heq]
      exact List.mem_append_left _ this
    · intro hnd
      have hnd0 : res0.Nodup := by
        rw [hres0, List.nil_append]
        rw [heq, validNames] at hnd
        rw [List.filterMap_append] at hnd
        exact hnd.of_append_left
      exact ((sortStrings_perm res0).nodup_iff).mpr hnd0
  · intro items hgood
    show (listFilesCore items []).map sortStrings = _
    rw [listFilesCore_good items [] hgood (by simp)]
    simp [Except.map]
  · intro l1 bad l2 h1 h2 h3
    show (listFilesCore (l1 ++ bad :: l2) []).map sortStrings = _
    rw [listFilesCore_err l1 bad l2 [] h1 h2 (by simpa using h3)]
    rfl

theorem enumerator_spec_witness :
    list_files_in_dir (.ok [DirItem.entry false true (some "b"),
        DirItem.entry false true (some "a")]) = .ok ["a", "b"] := by
  have h := enumerator_spec.2.2.1 [DirItem.entry false true (some "b"),
    DirItem.entry false true (some "a")] (by decide)
  rw [h]
  decide

/-- C10: directory entries whose file names are not valid Unicode are
silently skipped: inserting such an entry anywhere in the listing leaves
the enumerator's result (success and value alike) unchanged — so they
are excluded from the output, cause no error, and do not count toward
the 50-entry cap.  In particular a directory of 50 invalid-Unicode-named
files plus one valid one still lists the valid one. -/
theorem nonunicode_excluded (l1 l2 : List DirItem) (isF : Bool) :
    list_files_in_dir (.ok (l1 ++ DirItem.entry false isF none :: l2)) =
      list_files_in_dir (.ok (l1 ++ l2)) ∧
    list_files_in_dir
        (.ok (List.replicate 50 (DirItem.entry false true none) ++
          [DirItem.entry false true (some "a")])) = .ok ["a"] := by
  constructor
  · show (listFilesCore (l1 ++ DirItem.entry false isF none :: l2) []).map
        sortStrings = (listFilesCore (l1 ++ l2) []).map sortStrings
    rw [listFilesCore_skip_nonunicode l1 isF l2 [] (by simp)]
  · decide
